import Mathlib

/-!
Verification of the orchestration services of the allma backend
(conversation management, text splitting, RAG retrieval, vector store).

The Python services are shallowly embedded: strings are lists of characters
(or Lean strings where only whole-string equality matters), Python dict /
OrderedDict instances are association lists in insertion order, floating
point token estimates (words times 1.3) are modelled exactly by scaling all
token quantities by 10 (an estimate of w words is the natural number 13 * w,
a budget of t tokens is 10 * t), and similarity scores are exact rationals.
Python list slices with possibly negative or zero indices are modelled by
dedicated functions with Python clamping semantics.
-/

namespace Allma

/-- Whitespace test matching Python str.isspace on the characters that can
occur in the services (space, tab, newline, carriage return, vertical tab,
form feed). -/
def isPySpace (c : Char) : Bool :=
  c == ' ' || c == '\t' || c == '\n' || c == '\r' || c == '\x0b' || c == '\x0c'

/-- Python str.strip: remove leading and trailing whitespace. -/
def pyStrip (l : List Char) : List Char :=
  ((l.dropWhile isPySpace).reverse.dropWhile isPySpace).reverse

/-- Python str.split() with no argument: split on runs of whitespace,
dropping empty pieces. -/
def pyWords (l : List Char) : List (List Char) :=
  (l.splitOnP isPySpace).filter (fun w => !w.isEmpty)

/-- Index of the first occurrence of a character (Python str.find, with
none in place of -1). -/
def firstIdxOf (c : Char) : List Char → Option Nat
  | [] => none
  | x :: xs => if x = c then some 0 else (firstIdxOf c xs).map (· + 1)

/-- Index of the last occurrence of a character (Python str.rfind, with
none in place of -1). -/
def lastIdxOf (c : Char) : List Char → Option Nat
  | [] => none
  | x :: xs =>
    match lastIdxOf c xs with
    | some i => some (i + 1)
    | none => if x = c then some 0 else none

/-- Worker for splitOnSub: skip counts characters of a just-matched
separator still to be consumed. -/
def splitOnSubGo (sep : List Char) : Nat → List Char → List Char → List (List Char)
  | _, acc, [] => [acc.reverse]
  | skip + 1, acc, _ :: rest => splitOnSubGo sep skip acc rest
  | 0, acc, c :: rest =>
    if sep.isPrefixOf (c :: rest) then
      acc.reverse :: splitOnSubGo sep (sep.length - 1) [] rest
    else
      splitOnSubGo sep 0 (c :: acc) rest

/-- Python str.split(sep) for a nonempty separator sep: split at each
non-overlapping occurrence, scanning left to right, keeping empty pieces.
(Python raises on an empty separator; the splitter guards sep against
being empty before calling split, so that case is unreachable.) -/
def splitOnSub (sep l : List Char) : List (List Char) :=
  splitOnSubGo sep 0 [] l

/-- Python slice l[i:] including the negative-index and -0 semantics:
nonnegative i drops the first i elements, negative i keeps the last |i|
elements (clamped). -/
def pySliceFrom (i : Int) (l : List α) : List α :=
  if 0 ≤ i then l.drop i.toNat else l.drop (l.length - (-i).toNat)

/-- Python slice l[:i] including negative-index semantics: nonnegative i
keeps the first i elements, negative i drops the last |i| elements
(clamped). -/
def pySliceTo (i : Int) (l : List α) : List α :=
  if 0 ≤ i then l.take i.toNat else l.take (l.length - (-i).toNat)

/-! ### Conversation messages (schemas.ChatMessage, without the timestamp
and metadata fields, which no verified claim observes) -/

structure Msg where
  role : String
  content : String
deriving DecidableEq, Repr

/-- Scaled token estimate of a message: the code computes
len(content.split()) * 1.3; scaling by 10 makes it the natural number
13 * wordcount, compared against budgets scaled by 10. -/
def estT (m : Msg) : Nat :=
  13 * (pyWords m.content.data).length

/-- Sum of scaled token estimates. -/
def estSum (l : List Msg) : Nat :=
  (l.map estT).sum

/-! ### ConversationService.add_message (lines 160-170): the trim-then-append
of the per-conversation message list. Stats bookkeeping (counters and
timestamps) is not observed by the claim and is not modelled. -/

/-- ConversationService.add_message on the stored message list: when the
list has reached max_messages, keep the system messages plus the slice
other_msgs[-keep_count:] with keep_count = max - len(system) - 1, then
append the new message. The slice is the literal Python slice, including
its behaviour at keep_count less than or equal to zero. -/
def addMessage (maxMsgs : Nat) (msgs : List Msg) (m : Msg) : List Msg :=
  let msgs1 :=
    if maxMsgs ≤ msgs.length then
      let systemMsgs := msgs.filter (fun x => x.role == "system")
      let otherMsgs := msgs.filter (fun x => x.role != "system")
      let keepCount : Int := (maxMsgs : Int) - systemMsgs.length - 1
      systemMsgs ++ pySliceFrom (-keepCount) otherMsgs
    else msgs
  msgs1 ++ [m]

/-! ### ConversationService.get_context_for_llm (lines 351-392) -/

/-- Python list.insert(1, x): before a nonempty list it places x at index
1; before the empty list it appends (index clamped). -/
def pyInsert1 (l : List α) (m : α) : List α :=
  match l with
  | [] => [m]
  | h :: t => h :: m :: t

/-- Loop of get_context_for_llm over the non-system messages in
most-recent-first order: stop at the first message whose estimate would
push the running total past the budget, otherwise insert it at index 1
and accumulate its estimate. -/
def ctxLoop (budget : Nat) : List Msg → List Msg × Nat → List Msg × Nat
  | [], st => st
  | m :: rest, (acc, tc) =>
    if budget < tc + estT m then (acc, tc)
    else ctxLoop budget rest (pyInsert1 acc m, tc + estT m)

/-- ConversationService.get_context_for_llm on the stored message list:
seed with the first system message (if any, always included), then walk
the non-system messages from most recent to oldest under the scaled token
budget. -/
def getContextForLLM (maxTokens : Nat) (msgs : List Msg) : List Msg :=
  let start : List Msg × Nat :=
    match msgs.find? (fun m => m.role == "system") with
    | some m => ([m], estT m)
    | none => ([], 0)
  (ctxLoop (10 * maxTokens) ((msgs.filter (fun m => m.role != "system")).reverse) start).1

/-- Number of messages the ctxLoop accepts before its first stop, given a
running total tc: the greedy prefix length of the most-recent-first list. -/
def greedyCount (budget : Nat) : Nat → List Msg → Nat
  | _, [] => 0
  | tc, m :: rest =>
    if budget < tc + estT m then 0
    else greedyCount budget (tc + estT m) rest + 1

/-! ### VectorStoreService.delete_by_metadata (lines 355-370) and
RAGService.delete_by_source (lines 316-326) -/

structure VectorStore where
  documents : List (String × String)
  embeddings : List (String × List Rat)
  metadatas : List (String × List (String × String))
deriving DecidableEq, Repr

/-- VectorStoreService.delete_by_metadata: the body only logs a warning and
returns 0; no store field is read or written. -/
def deleteByMetadata (store : VectorStore) (_metadata : List (String × String)) :
    Nat × VectorStore :=
  (0, store)

/-- RAGService.delete_by_source: delegates to delete_by_metadata with the
single-entry source filter. -/
def deleteBySource (store : VectorStore) (source : String) : Nat × VectorStore :=
  deleteByMetadata store [("source", source)]

/-! ### TextSplitter (document_service.py lines 45-201)

The two recursions of the splitter are embedded with explicit fuel so that
every definition is structural and kernel-evaluable:
the separator recursion gets fuel separators.length + 1, which provably
never runs out because each recursive call receives the strict tail of the
separator list; _split_by_size gets fuel text.length, which suffices
exactly when the configuration makes the loop advance (the termination
claim). Fuel exhaustion is the value none. Window arithmetic uses natural
numbers: the Python loop variable start can only go negative in
configurations where the loop does not terminate at all (overlap at least
chunk_size), outside every theorem proved here. -/

/-- Overlap window of _apply_overlap: the slice prev[-overlap:] when the
previous chunk is longer than the overlap, else the whole previous
chunk. -/
def overlapWindow (ov : Nat) (prev : List Char) : List Char :=
  if ov < prev.length then pySliceFrom (-(ov : Int)) prev else prev

/-- TextSplitter._apply_overlap text taken from the previous pre-overlap
chunk: the overlap window, dropped past its first space when that space
sits at a positive index. -/
def overlapText (ov : Nat) (prev : List Char) : List Char :=
  match firstIdxOf ' ' (overlapWindow ov prev) with
  | some i => if 0 < i then (overlapWindow ov prev).drop (i + 1) else overlapWindow ov prev
  | none => overlapWindow ov prev

/-- TextSplitter._apply_overlap: keep the first chunk, and prepend to every
later chunk the overlap text of its predecessor plus a single space.
Unchanged when the chunk list is empty or the overlap is zero. -/
def applyOverlap (ov : Nat) (chunks : List (List Char)) : List (List Char) :=
  match chunks with
  | [] => []
  | c0 :: restChunks =>
    if ov = 0 then c0 :: restChunks
    else c0 :: ((c0 :: restChunks).zip restChunks).map
      (fun pc => overlapText ov pc.1 ++ ' ' :: pc.2)

/-- One window of _split_by_size: the slice text[start:start+chunk_size]
and its cut position. When the window does not reach the end of the text
and its last space lies past chunk_size / 2, the chunk is cut back to that
space and the position moves to it; otherwise the full window stands. -/
def sbsCut (cs : Nat) (text : List Char) (start : Nat) : List Char × Nat :=
  let chunk := (text.drop start).take cs
  let stop := start + cs
  if stop < text.length then
    match lastIdxOf ' ' chunk with
    | some ls => if cs / 2 < ls then (chunk.take ls, start + ls) else (chunk, stop)
    | none => (chunk, stop)
  else (chunk, stop)

/-- TextSplitter._split_by_size as a fuel-indexed loop over the window
start: take the (possibly cut) window, strip it, and restart the window at
the cut position minus the overlap. -/
def splitBySizeAux (cs ov : Nat) (text : List Char) :
    Nat → Nat → Option (List (List Char))
  | 0, start => if start < text.length then none else some []
  | f + 1, start =>
    if start < text.length then
      match splitBySizeAux cs ov text f ((sbsCut cs text start).2 - ov) with
      | none => none
      | some rest => some (pyStrip (sbsCut cs text start).1 :: rest)
    else some []

/-- TextSplitter._split_by_size with fuel text.length. -/
def splitBySize (cs ov : Nat) (text : List Char) : Option (List (List Char)) :=
  splitBySizeAux cs ov text text.length 0

/-- Tail of _split_with_separator: append the stripped current chunk when
it is nonempty after stripping, then apply the overlap. -/
def finishSws (ov : Nat) (chunks : List (List Char)) (current : List Char) :
    List (List Char) :=
  applyOverlap ov (if pyStrip current ≠ [] then chunks ++ [pyStrip current] else chunks)

/-- Loop of _split_with_separator over the pieces of text.split(separator):
skip whitespace-only pieces; grow the current chunk while the joined text
fits in chunk_size; otherwise flush the current chunk and either recurse
(via recCall, the recursive split with the remaining separators) on an
oversized piece or start the piece as the new current chunk. -/
def swsLoopH (cs : Nat) (sep : List Char)
    (recCall : List Char → Option (List (List Char))) :
    List (List Char) → List (List Char) → List Char →
    Option (List (List Char) × List Char)
  | [], chunks, current => some (chunks, current)
  | piece :: more, chunks, current =>
    if pyStrip piece = [] then swsLoopH cs sep recCall more chunks current
    else
      let potential := if current ≠ [] then current ++ sep ++ piece else piece
      if potential.length ≤ cs then swsLoopH cs sep recCall more chunks potential
      else
        let chunks1 := if current ≠ [] then chunks ++ [pyStrip current] else chunks
        if cs < piece.length then
          match recCall piece with
          | none => none
          | some sub => swsLoopH cs sep recCall more (chunks1 ++ sub) []
        else swsLoopH cs sep recCall more chunks1 piece

/-- Loop of _recursive_split over the candidate separators: try each
nonempty separator occurring in the text; when _split_with_separator
returns a nonempty chunk list, return it, otherwise try the next
candidate; when the candidates are exhausted, fall back to
_split_by_size. -/
def trySepsH (cs ov : Nat) (recCall : List Char → Option (List (List Char)))
    (text : List Char) : List (List Char) → Option (List (List Char))
  | [] => splitBySize cs ov text
  | sep :: more =>
    if sep ≠ [] ∧ sep <:+: text then
      match swsLoopH cs sep recCall (splitOnSub sep text) [] [] with
      | none => none
      | some st =>
        let res := finishSws ov st.1 st.2
        if res = [] then trySepsH cs ov recCall text more else some res
    else trySepsH cs ov recCall text more

/-- TextSplitter._recursive_split: empty text gives no chunks; text within
chunk_size gives its stripped form (or nothing when blank); otherwise try
the candidate separators, every nested recursive call receiving the tail
of the separator list, with the size-based fallback at the end. -/
def recursiveSplitF (cs ov : Nat) :
    Nat → List (List Char) → List Char → Option (List (List Char))
  | 0, _, _ => none
  | fuel + 1, seps, text =>
    if text = [] then some []
    else if text.length ≤ cs then
      some (if pyStrip text = [] then [] else [pyStrip text])
    else
      match seps with
      | [] => splitBySize cs ov text
      | s0 :: tl => trySepsH cs ov (recursiveSplitF cs ov fuel tl) text (s0 :: tl)

structure SplitCfg where
  chunkSize : Nat
  chunkOverlap : Nat
  separators : List (List Char)

/-- Default separator list of TextSplitter.__init__. -/
def defaultSeparators : List (List Char) :=
  ["\n\n".data, "\n".data, ". ".data, "! ".data, "? ".data,
   "; ".data, ", ".data, " ".data, "".data]

/-- TextSplitter.split_text: _recursive_split on the configured separator
list, with separator fuel that the fuel-sufficiency lemma shows is never
exhausted. -/
def splitText (cfg : SplitCfg) (text : List Char) : Option (List (List Char)) :=
  recursiveSplitF cfg.chunkSize cfg.chunkOverlap
    (cfg.separators.length + 1) cfg.separators text

/-! ### RAGService._rerank_results (lines 237-274) and retrieve_context
(lines 157-235). Scores are exact rationals. -/

structure RChunk where
  content : String
  score : Rat
deriving DecidableEq, Repr

/-- Term set of a text: lower-case, split on whitespace, deduplicated
(Python set(text.lower().split())). Lower-casing is per character, which
matches Python on the ASCII texts the claims evaluate. -/
def termsOf (s : String) : List (List Char) :=
  (pyWords (s.data.map Char.toLower)).dedup

/-- Size of the intersection of the two term sets. -/
def overlapCount (query content : String) : Nat :=
  ((termsOf query).filter (fun t => t ∈ termsOf content)).length

/-- Python min on two rationals (kernel-evaluable form of min). -/
def ratMin (a b : Rat) : Rat :=
  if a ≤ b then a else b

/-- Keyword bonus min(0.05 * overlap, 0.2). -/
def keywordBonus (query content : String) : Rat :=
  ratMin ((overlapCount query content : Rat) * (5 / 100)) (2 / 10)

/-- Score update of _rerank_results: min(base + bonus, 1.0). -/
def updateScore (query : String) (c : RChunk) : RChunk :=
  { c with score := ratMin (c.score + keywordBonus query c.content) 1 }

/-- Stable descending insertion step: place x before the first element
whose score is at most x's (so earlier elements win ties). -/
def insertDesc (x : RChunk) : List RChunk → List RChunk
  | [] => [x]
  | y :: ys => if y.score ≤ x.score then x :: y :: ys else y :: insertDesc x ys

/-- Stable descending sort by score. Python list.sort(key=score,
reverse=True) is a stable descending sort, and the stable descending sort
with respect to the total score preorder is unique, so this insertion sort
computes the identical list. -/
def sortDesc : List RChunk → List RChunk
  | [] => []
  | x :: xs => insertDesc x (sortDesc xs)

/-- RAGService._rerank_results: update every score in place, then the
stable descending sort by the new score. -/
def rerank (query : String) (results : List RChunk) : List RChunk :=
  sortDesc (results.map (updateScore query))

structure RagCfg where
  topKResults : Nat
  similarityThreshold : Rat
  rerankEnabled : Bool

/-- k = top_k or config.top_k_results with Python falsiness: a missing or
zero top_k selects the configured default. config.top_k_results is
declared with a nonnegative default (5). -/
def effectiveK (cfg : RagCfg) (topK : Option Int) : Int :=
  match topK with
  | none => cfg.topKResults
  | some t => if t = 0 then cfg.topKResults else t

/-- Steps 3 and 4 of RAGService.retrieve_context on the chunk list the
vector-store search returned (the remote search of step 2 is the input):
rerank when enabled and the list is nonempty, drop chunks below the
similarity threshold, then the Python slice [:k]. -/
def retrieveContext (cfg : RagCfg) (topK : Option Int) (query : String)
    (results : List RChunk) : List RChunk :=
  let results2 := if cfg.rerankEnabled ∧ results ≠ [] then rerank query results else results
  pySliceTo (effectiveK cfg topK)
    (results2.filter (fun r => cfg.similarityThreshold ≤ r.score))

/-! ### RAGService._generate_embedding (lines 99-126) -/

/-- RAGService._generate_embedding with the remote Ollama call modelled as
a pure oracle from texts to vectors and Python hash() as the parameter h:
the cache dict is keyed by h(text); a hit returns the stored vector, a
miss calls the oracle and stores the result while the cache is below its
maximum size (1000 in the source). -/
def genEmbedding (h : String → Int) (oracle : String → List Rat)
    (cacheMax : Nat) (cache : List (Int × List Rat)) (text : String) :
    List Rat × List (Int × List Rat) :=
  match cache.lookup (h text) with
  | some v => (v, cache)
  | none =>
    let v := oracle text
    (v, if cache.length < cacheMax then cache ++ [(h text, v)] else cache)

/-! ### ConversationService conversation LRU (lines 69-139, 345-349).
The OrderedDict is an association list in access order (head = least
recently used); the stats dict is tracked as its key list in insertion
order, since no claim observes the counter or timestamp values. -/

structure Conv where
  messages : List Msg
deriving DecidableEq, Repr

structure ConvState where
  convs : List (String × Conv)
  stats : List String
deriving DecidableEq, Repr

def emptyConvState : ConvState := ⟨[], []⟩

/-- Eviction loop of create_conversation: while at capacity, evict the
first (least recently used) conversation and its stats entry. (With
maxC = 0 and an empty store the Python loop would raise StopIteration;
the model returns the empty store; every theorem assumes maxC at least
1.) -/
def evictLoop (maxC : Nat) :
    List (String × Conv) → List String → List (String × Conv) × List String
  | [], stats => ([], stats)
  | (k, v) :: rest, stats =>
    if maxC ≤ ((k, v) :: rest).length then evictLoop maxC rest (stats.erase k)
    else ((k, v) :: rest, stats)

/-- Python dict assignment d[k] = v on an insertion-ordered dict: replace
in place when the key exists, else append. -/
def odSetConv (convs : List (String × Conv)) (k : String) (v : Conv) :
    List (String × Conv) :=
  if convs.any (fun p => p.1 == k) then
    convs.map (fun p => if p.1 == k then (k, v) else p)
  else convs ++ [(k, v)]

/-- Stats dict assignment, keys only. -/
def odSetStat (stats : List String) (k : String) : List String :=
  if stats.contains k then stats else stats ++ [k]

/-- ConversationService.create_conversation: evict while at capacity, then
store a fresh empty conversation and its stats entry. -/
def createConversation (maxC : Nat) (st : ConvState) (cid : String) : ConvState :=
  let ev := evictLoop maxC st.convs st.stats
  ⟨odSetConv ev.1 cid ⟨[]⟩, odSetStat ev.2 cid⟩

/-- ConversationService.get_conversation: on a hit, move the conversation
to the most-recently-used end (stats values change only by timestamp,
which is not modelled). -/
def getConversation (st : ConvState) (cid : String) : Option Conv × ConvState :=
  match st.convs.lookup cid with
  | none => (none, st)
  | some v =>
    (some v, ⟨(st.convs.eraseP (fun p => p.1 == cid)) ++ [(cid, v)], st.stats⟩)

/-- ConversationService.get_or_create: state effect of get on a hit,
create on a miss. -/
def getOrCreate (maxC : Nat) (st : ConvState) (cid : String) : ConvState :=
  match getConversation st cid with
  | (some _, st2) => st2
  | (none, st2) => createConversation maxC st2 cid

/-- Word-boundary alignment: s occurs as a suffix of p starting at the
start of p or right after a space (so not in the middle of a word of p). -/
def boundaryAligned (s p : List Char) : Prop :=
  ∃ t, p = t ++ s ∧ (t = [] ∨ ∃ t2, t = t2 ++ [' '])

/-! ## Theorems -/

/-- Claim C9: for every metadata filter and store state, delete_by_metadata
returns 0 and leaves the stored vectors, documents and metadata unchanged,
and delete_by_source returns 0 for every source and deletes nothing. -/
theorem c9_delete_stub_frame (store : VectorStore)
    (md : List (String × String)) (src : String) :
    deleteByMetadata store md = (0, store) ∧
    (deleteByMetadata store md).2.documents = store.documents ∧
    (deleteByMetadata store md).2.embeddings = store.embeddings ∧
    (deleteByMetadata store md).2.metadatas = store.metadatas ∧
    deleteBySource store src = (0, store) :=
  ⟨rfl, rfl, rfl, rfl, rfl⟩

/-- Claim C3 (code bug witness): with max_messages_per_conversation = 1 and
one stored user turn, appending a second user turn keeps both turns: the
slice other_msgs[-0:] is the whole list, so the stored total exceeds the
cap. -/
theorem c3_cap_violated :
    addMessage 1 [⟨"user", "hi"⟩] ⟨"user", "yo"⟩ =
      [⟨"user", "hi"⟩, ⟨"user", "yo"⟩] ∧
    ¬ (addMessage 1 [⟨"user", "hi"⟩] ⟨"user", "yo"⟩).length ≤ 1 := by
  decide

/-- Claim C6 (counterexample): an explicit caller top_k of 0 does not bound
the result length by 0: Python or-falsiness replaces 0 by the configured
default, so a single above-threshold chunk is returned. -/
theorem c6_counterexample :
    retrieveContext ⟨5, 0, false⟩ (some 0) "q" [⟨"a", 1⟩] = [⟨"a", 1⟩] ∧
    ¬ (retrieveContext ⟨5, 0, false⟩ (some 0) "q" [⟨"a", 1⟩]).length ≤ 0 := by
  decide

/-- Claim C7 (counterexample): reranking is not monotone on a chunk whose
incoming score exceeds 1: a chunk with score 2 comes back clamped to 1,
strictly below its original similarity score. -/
theorem c7_counterexample :
    rerank "y" [⟨"x", 2⟩] = [⟨"x", 1⟩] ∧ (1 : Rat) < 2 := by
  have hov : overlapCount "y" "x" = 0 := by decide
  refine ⟨?_, by norm_num⟩
  simp only [rerank, List.map, updateScore, keywordBonus, hov, sortDesc, insertDesc]
  norm_num [ratMin]

/-- Claim C8 (counterexample): a whitespace-only input longer than
chunk_size does not yield the empty sequence: with chunk_size 5 and
overlap 2, ten tab characters reach the fixed-size fallback, which returns
four chunks that are all empty after trimming. -/
theorem c8_counterexample :
    pyStrip (List.replicate 10 '\t') = [] ∧
    splitText ⟨5, 2, defaultSeparators⟩ (List.replicate 10 '\t') =
      some [[], [], [], []] := by
  decide

/-- Claim C1 (counterexample): without a system turn the returned turns are
not in chronological order (list.insert(1, x) appends to the singleton
list, scrambling the order), and a system turn whose estimate alone
exceeds max_tokens is still returned, so the total estimate of the result
exceeds the budget. -/
theorem c1_counterexample :
    getContextForLLM 4000 [⟨"user", "a"⟩, ⟨"user", "b"⟩] =
      [⟨"user", "b"⟩, ⟨"user", "a"⟩] ∧
    getContextForLLM 4000 [⟨"user", "a"⟩, ⟨"user", "b"⟩] ≠
      [⟨"user", "a"⟩, ⟨"user", "b"⟩] ∧
    getContextForLLM 1 [⟨"system", "word"⟩] = [⟨"system", "word"⟩] ∧
    10 * 1 < estSum (getContextForLLM 1 [⟨"system", "word"⟩]) := by
  decide

/-- Claim C5 (counterexample): with max_conversations = 1, accessing the
single stored conversation does not protect it from the eviction caused by
the next creation: it is the least (and most) recently used entry and is
evicted anyway. -/
theorem c5_counterexample :
    createConversation 1
        ((getConversation (createConversation 1 emptyConvState "a") "a").2) "b" =
      ⟨[("b", ⟨[]⟩)], ["b"]⟩ ∧
    "a" ∉ (createConversation 1
        ((getConversation (createConversation 1 emptyConvState "a") "a").2) "b").convs.map
        Prod.fst := by
  decide

/-- Claim C2 (counterexample): the overlap prefix can start mid-word. On
the input "abcdefghij. klmnop" with chunk_size 10 and overlap 4, the
second returned chunk is "ghij klmnop": the prepended overlap, the s with
chunk = s ++ " " ++ previous-content, is necessarily "ghij", which starts
inside the word "abcdefghij" of the previous chunk, not at a word
boundary. -/
theorem c2_counterexample :
    splitText ⟨10, 4, defaultSeparators⟩ "abcdefghij. klmnop".data =
      some ["abcdefghij".data, "ghij klmnop".data] ∧
    ∀ s : List Char,
      "ghij klmnop".data = s ++ ' ' :: "klmnop".data →
      ¬ boundaryAligned s "abcdefghij".data := by
  refine ⟨by decide, ?_⟩
  intro s hs hb
  have hs4 : s = "ghij".data := by
    have heq : "ghij".data ++ ' ' :: "klmnop".data = s ++ ' ' :: "klmnop".data := hs
    have hlen : List.length "ghij".data = List.length s := by
      have h2 := congrArg List.length heq
      simp at h2 ⊢
      omega
    exact (List.append_inj_left heq hlen).symm
  subst hs4
  obtain ⟨t, ht, hb2⟩ := hb
  have htv : t = "abcdef".data := by
    have heq : "abcdef".data ++ "ghij".data = t ++ "ghij".data := ht
    have hlen : List.length "abcdef".data = List.length t := by
      have h2 := congrArg List.length heq
      simp at h2 ⊢
      omega
    exact (List.append_inj_left heq hlen).symm
  subst htv
  rcases hb2 with h0 | ⟨t2, ht2⟩
  · exact absurd h0 (by decide)
  · have : ("abcdef".data).getLast? = some ' ' := by
      rw [ht2]; exact List.getLast?_concat t2
    exact absurd this (by decide)

/-- Claim C4 (code bug): the embedding cache is keyed by hash(text), not by
the text, so whenever two distinct texts collide under the hash the second
call returns the first text's cached vector regardless of what the
embedding service would produce for it; and a collision pair necessarily
exists, since no function from the infinitely many texts into the 64-bit
hash values is injective. -/
theorem c4_hash_keyed_cache (h : String → Int) (oracle : String → List Rat)
    (t1 t2 : String) (_hne : t1 ≠ t2) (hcol : h t1 = h t2) :
    (genEmbedding h oracle 1000 [] t1).1 = oracle t1 ∧
    (genEmbedding h oracle 1000 (genEmbedding h oracle 1000 [] t1).2 t2).1 =
      oracle t1 ∧
    (∀ g : String → Fin (2 ^ 64), ¬ Function.Injective g) := by
  refine ⟨rfl, ?_, ?_⟩
  · simp only [genEmbedding, List.lookup, hcol]
    simp
  · intro g hg
    have hstr : Function.Injective (fun n : Nat => String.mk (List.replicate n 'a')) := by
      intro a b hab
      simpa using congrArg (fun s => s.data.length) hab
    have : Infinite String := Infinite.of_injective _ hstr
    obtain ⟨x, y, hxy, hmap⟩ := Finite.exists_ne_map_eq_of_infinite g
    exact hxy (hg hmap)

/-- Claim C8 (amended, positive part): empty input, and whitespace-only
input of length at most chunk_size, yield the empty chunk sequence. -/
theorem c8_amended (cfg : SplitCfg) (text : List Char)
    (hblank : pyStrip text = []) (hlen : text.length ≤ cfg.chunkSize) :
    splitText cfg text = some [] := by
  by_cases h0 : text = [] <;>
    simp [splitText, recursiveSplitF, h0, hlen, hblank]

/-- Witness for c8_amended: a single blank of length 1 with the default
configuration. -/
theorem c8_amended_witness :
    pyStrip " ".data = [] ∧ " ".data.length ≤ 1000 ∧
    splitText ⟨1000, 200, defaultSeparators⟩ " ".data = some [] :=
  ⟨by decide, by decide,
    c8_amended ⟨1000, 200, defaultSeparators⟩ " ".data (by decide) (by decide)⟩

/-- Claim C6 (amended): provided the caller's top_k, when present, is
nonnegative, every returned chunk scores at least the similarity threshold
(after reranking when enabled), the result length is bounded by the
effective k, and the result is exactly the first effective-k threshold
survivors in rerank order; the effective k is the caller's top_k when
positive and the configured default when the argument is omitted or 0
(Python or-falsiness). -/
theorem c6_amended (cfg : RagCfg) (topK : Option Int) (query : String)
    (results : List RChunk) (htop : ∀ t, topK = some t → 0 ≤ t) :
    (∀ c ∈ retrieveContext cfg topK query results,
      cfg.similarityThreshold ≤ c.score) ∧
    (retrieveContext cfg topK query results).length ≤ (effectiveK cfg topK).toNat ∧
    retrieveContext cfg topK query results =
      ((if cfg.rerankEnabled ∧ results ≠ [] then rerank query results
        else results).filter (fun r => cfg.similarityThreshold ≤ r.score)).take
        (effectiveK cfg topK).toNat := by
  have hk : 0 ≤ effectiveK cfg topK := by
    cases topK with
    | none => simp [effectiveK]
    | some t =>
      by_cases ht : t = 0
      · simp [effectiveK, ht]
      · simpa [effectiveK, ht] using htop t rfl
  have hout : retrieveContext cfg topK query results =
      ((if cfg.rerankEnabled ∧ results ≠ [] then rerank query results
        else results).filter (fun r => cfg.similarityThreshold ≤ r.score)).take
        (effectiveK cfg topK).toNat := by
    simp [retrieveContext, pySliceTo, hk]
  refine ⟨?_, ?_, hout⟩
  · intro c hc
    rw [hout] at hc
    have hc2 := List.mem_filter.mp (List.take_subset _ _ hc)
    simpa using hc2.2
  · rw [hout]
    exact List.length_take_le _ _

/-- Witness for c6_amended at a concrete positive top_k. -/
theorem c6_amended_witness :
    (∀ t : Int, (some 2 : Option Int) = some t → 0 ≤ t) ∧
    ((∀ c ∈ retrieveContext ⟨5, 7/10, false⟩ (some 2) "q" [⟨"a", 1⟩],
      (⟨5, 7/10, false⟩ : RagCfg).similarityThreshold ≤ c.score) ∧
    (retrieveContext ⟨5, 7/10, false⟩ (some 2) "q" [⟨"a", 1⟩]).length ≤
      (effectiveK ⟨5, 7/10, false⟩ (some 2)).toNat ∧
    retrieveContext ⟨5, 7/10, false⟩ (some 2) "q" [⟨"a", 1⟩] =
      ((if (⟨5, 7/10, false⟩ : RagCfg).rerankEnabled ∧ ([⟨"a", 1⟩] : List RChunk) ≠ []
        then rerank "q" [⟨"a", 1⟩] else [⟨"a", 1⟩]).filter
          (fun r => (⟨5, 7/10, false⟩ : RagCfg).similarityThreshold ≤ r.score)).take
        (effectiveK ⟨5, 7/10, false⟩ (some 2)).toNat) := by
  have hhyp : ∀ t : Int, (some 2 : Option Int) = some t → 0 ≤ t := by
    intro t ht
    cases ht
    decide
  exact ⟨hhyp, c6_amended ⟨5, 7/10, false⟩ (some 2) "q" [⟨"a", 1⟩] hhyp⟩

/-- Inserting into the descending order keeps the list a permutation. -/
theorem insertDesc_perm (x : RChunk) (l : List RChunk) :
    List.Perm (insertDesc x l) (x :: l) := by
  induction l with
  | nil => exact List.Perm.refl _
  | cons y ys ih =>
    by_cases h : y.score ≤ x.score
    · simp [insertDesc, h]
    · simp only [insertDesc, if_neg h]
      exact (ih.cons y).trans (List.Perm.swap x y ys)

/-- The stable descending sort is a permutation of its input. -/
theorem sortDesc_perm (l : List RChunk) : List.Perm (sortDesc l) l := by
  induction l with
  | nil => exact List.Perm.refl _
  | cons x xs ih => exact (insertDesc_perm x (sortDesc xs)).trans (ih.cons x)

/-- Inserting into a descending list keeps it descending. -/
theorem insertDesc_pairwise (x : RChunk) (l : List RChunk)
    (hl : l.Pairwise (fun a b => b.score ≤ a.score)) :
    (insertDesc x l).Pairwise (fun a b => b.score ≤ a.score) := by
  induction l with
  | nil => simp [insertDesc]
  | cons y ys ih =>
    rcases hl with _ | ⟨hy, hys⟩
    by_cases h : y.score ≤ x.score
    · simp only [insertDesc, if_pos h]
      refine List.Pairwise.cons ?_ (List.Pairwise.cons hy hys)
      intro z hz
      rcases List.mem_cons.mp hz with rfl | hz2
      · exact h
      · exact (hy z hz2).trans h
    · simp only [insertDesc, if_neg h]
      refine List.Pairwise.cons ?_ (ih hys)
      intro z hz
      rcases List.mem_cons.mp ((insertDesc_perm x ys).mem_iff.mp hz) with rfl | hz2
      · exact le_of_lt (lt_of_not_le h)
      · exact hy z hz2

/-- The stable descending sort is descending. -/
theorem sortDesc_pairwise (l : List RChunk) :
    (sortDesc l).Pairwise (fun a b => b.score ≤ a.score) := by
  induction l with
  | nil => simp [sortDesc]
  | cons x xs ih => exact insertDesc_pairwise x (sortDesc xs) ih

/-- Filtering one score class through an insertion: the inserted element
lands in front of the class exactly when it belongs to it, because the
elements it passed all have strictly larger scores. -/
theorem insertDesc_filter (x : RChunk) (l : List RChunk) (q : Rat) :
    (insertDesc x l).filter (fun c => c.score == q) =
      if x.score == q then x :: l.filter (fun c => c.score == q)
      else l.filter (fun c => c.score == q) := by
  induction l with
  | nil => by_cases hx : x.score == q <;> simp [insertDesc, hx]
  | cons y ys ih =>
    by_cases h : y.score ≤ x.score
    · by_cases hx : x.score == q <;> simp [insertDesc, h, hx, List.filter_cons]
    · by_cases hx : x.score == q
      · have hxq : x.score = q := by simpa using hx
        have hy : ¬ (y.score == q) := by
          simp only [beq_iff_eq]
          intro hyq
          exact h (le_of_eq (hyq.trans hxq.symm))
        simp [insertDesc, if_neg h, List.filter_cons, hy, ih, hx]
      · simp [insertDesc, if_neg h, List.filter_cons, ih, hx]

/-- Stability of the descending sort: every score class is kept in input
order. -/
theorem sortDesc_filter (l : List RChunk) (q : Rat) :
    (sortDesc l).filter (fun c => c.score == q) =
      l.filter (fun c => c.score == q) := by
  induction l with
  | nil => simp [sortDesc]
  | cons x xs ih =>
    by_cases hx : x.score == q <;>
      simp [sortDesc, insertDesc_filter, hx, ih, List.filter_cons]

/-- ratMin is the lattice min. -/
theorem ratMin_eq_min (a b : Rat) : ratMin a b = min a b := by
  by_cases h : a ≤ b <;> simp [ratMin, h, min_def]

/-- The keyword bonus is never negative. -/
theorem keywordBonus_nonneg (q c : String) : 0 ≤ keywordBonus q c := by
  unfold keywordBonus ratMin
  split
  · positivity
  · norm_num

/-- At an incoming score of at most 1, the updated score never drops. -/
theorem updateScore_ge (q : String) (c : RChunk) (h : c.score ≤ 1) :
    c.score ≤ (updateScore q c).score := by
  unfold updateScore ratMin
  split
  · exact le_add_of_nonneg_right (keywordBonus_nonneg q c.content)
  · simpa using h

/-- Claim C7 (amended): provided every incoming score is at most 1 (as the
cosine-similarity scores of the pipeline are), reranking computes
min(score + min(0.05 * overlap, 0.2), 1) with terms obtained by
lower-casing and whitespace-splitting, never lowers a score, and returns a
descending stable sort on the new scores. -/
theorem c7_amended (query : String) (results : List RChunk)
    (hle : ∀ c ∈ results, c.score ≤ 1) :
    (∀ c ∈ results, (updateScore query c).score =
      min (c.score + min ((overlapCount query c.content : Rat) * (5 / 100)) (2 / 10)) 1) ∧
    (∀ c ∈ results, c.score ≤ (updateScore query c).score) ∧
    List.Perm (rerank query results) (results.map (updateScore query)) ∧
    (rerank query results).Pairwise (fun a b => b.score ≤ a.score) ∧
    ∀ q : Rat, (rerank query results).filter (fun c => c.score == q) =
      (results.map (updateScore query)).filter (fun c => c.score == q) := by
  refine ⟨?_, ?_, sortDesc_perm _, sortDesc_pairwise _, fun q => sortDesc_filter _ q⟩
  · intro c _
    simp [updateScore, keywordBonus, ratMin_eq_min]
  · intro c hc
    exact updateScore_ge query c (hle c hc)

/-- Witness for c7_amended on a single chunk whose score is within bounds. -/
theorem c7_amended_witness :
    (∀ c ∈ ([⟨"hi", 1⟩] : List RChunk), c.score ≤ 1) ∧
    ((∀ c ∈ ([⟨"hi", 1⟩] : List RChunk), (updateScore "hi" c).score =
      min (c.score + min ((overlapCount "hi" c.content : Rat) * (5 / 100)) (2 / 10)) 1) ∧
    (∀ c ∈ ([⟨"hi", 1⟩] : List RChunk), c.score ≤ (updateScore "hi" c).score) ∧
    List.Perm (rerank "hi" [⟨"hi", 1⟩])
      (([⟨"hi", 1⟩] : List RChunk).map (updateScore "hi")) ∧
    (rerank "hi" [⟨"hi", 1⟩]).Pairwise (fun a b => b.score ≤ a.score) ∧
    ∀ q : Rat, (rerank "hi" [⟨"hi", 1⟩]).filter (fun c => c.score == q) =
      (([⟨"hi", 1⟩] : List RChunk).map (updateScore "hi")).filter
        (fun c => c.score == q)) :=
  ⟨by decide, c7_amended "hi" [⟨"hi", 1⟩] (by decide)⟩

/-- A Python tail slice is a suffix. -/
theorem pySliceFrom_suffix (i : Int) (l : List α) : pySliceFrom i l <:+ l := by
  unfold pySliceFrom
  split <;> exact List.drop_suffix _ _

/-- The overlap window is a suffix of the previous chunk. -/
theorem overlapWindow_suffix (ov : Nat) (prev : List Char) :
    overlapWindow ov prev <:+ prev := by
  unfold overlapWindow
  split
  · exact pySliceFrom_suffix _ _
  · exact List.suffix_refl _

/-- The overlap text is a suffix of the overlap window. -/
theorem overlapText_suffix_window (ov : Nat) (prev : List Char) :
    overlapText ov prev <:+ overlapWindow ov prev := by
  unfold overlapText
  split
  · split
    · exact List.drop_suffix _ _
    · exact List.suffix_refl _
  · exact List.suffix_refl _

/-- The overlap text is a suffix of the previous chunk. -/
theorem overlapText_suffix (ov : Nat) (prev : List Char) :
    overlapText ov prev <:+ prev :=
  (overlapText_suffix_window ov prev).trans (overlapWindow_suffix ov prev)

/-- For a positive overlap the window has length at most the overlap. -/
theorem overlapWindow_length (ov : Nat) (prev : List Char) (h : 0 < ov) :
    (overlapWindow ov prev).length ≤ ov := by
  unfold overlapWindow pySliceFrom
  split
  · rw [if_neg (by omega)]
    simp only [List.length_drop]
    omega
  · omega

/-- For a positive overlap the overlap text has length at most the
overlap. -/
theorem overlapText_length (ov : Nat) (prev : List Char) (h : 0 < ov) :
    (overlapText ov prev).length ≤ ov :=
  le_trans (overlapText_suffix_window ov prev).length_le (overlapWindow_length ov prev h)

/-- firstIdxOf points at an occurrence of the character. -/
theorem firstIdxOf_get (c : Char) (l : List Char) (i : Nat)
    (h : firstIdxOf c l = some i) : l[i]? = some c := by
  induction l generalizing i with
  | nil => simp [firstIdxOf] at h
  | cons x xs ih =>
    by_cases hx : x = c
    · simp only [firstIdxOf, if_pos hx] at h
      cases h
      simpa using hx
    · simp only [firstIdxOf, if_neg hx, Option.map_eq_some'] at h
      obtain ⟨j, hj, rfl⟩ := h
      simpa using ih j hj

/-- When the window has its first space at a positive index, the overlap
text starts right after a space of the previous chunk. -/
theorem overlapText_aligned (ov : Nat) (prev : List Char) (j : Nat)
    (hj : firstIdxOf ' ' (overlapWindow ov prev) = some j) (hpos : 0 < j) :
    ∃ t, prev = t ++ overlapText ov prev ∧ t.getLast? = some ' ' := by
  have hget : (overlapWindow ov prev)[j]? = some ' ' := firstIdxOf_get _ _ _ hj
  have hs : overlapText ov prev = (overlapWindow ov prev).drop (j + 1) := by
    unfold overlapText
    rw [hj]
    simp [hpos]
  obtain ⟨u, hu⟩ := overlapWindow_suffix ov prev
  refine ⟨u ++ (overlapWindow ov prev).take (j + 1), ?_, ?_⟩
  · rw [hs, List.append_assoc, List.take_append_drop, hu]
  · have htake : (overlapWindow ov prev).take (j + 1) =
        (overlapWindow ov prev).take j ++ [' '] := by
      rw [List.take_succ, hget]
      rfl
    rw [htake, ← List.append_assoc]
    exact List.getLast?_concat _

/-- Claim C2 (amended): for a positive overlap, every chunk after the first
in the output of _apply_overlap is the overlap text of the previous
pre-overlap chunk, a single space, and the pre-overlap chunk itself; the
overlap text is a suffix of the previous pre-overlap chunk (hence, since
that chunk is a suffix of the previous output chunk, of the previous
output chunk too) of length at most the overlap; and it starts right after
a space whenever the overlap window contains a space at positive index
(when the window has no space, or starts with one, it is used untrimmed
and can start mid-word). -/
theorem c2_amended (ov : Nat) (chunks : List (List Char)) (i : Nat)
    (p c q y : List Char) (hov : 0 < ov)
    (hp : chunks[i]? = some p) (hc : chunks[i + 1]? = some c)
    (hq : (applyOverlap ov chunks)[i]? = some q)
    (hy : (applyOverlap ov chunks)[i + 1]? = some y) :
    y = overlapText ov p ++ ' ' :: c ∧
    overlapText ov p <:+ p ∧
    p <:+ q ∧
    (overlapText ov p).length ≤ ov ∧
    (∀ j, firstIdxOf ' ' (overlapWindow ov p) = some j → 0 < j →
      ∃ t, p = t ++ overlapText ov p ∧ t.getLast? = some ' ') := by
  cases chunks with
  | nil => simp at hp
  | cons c0 rest =>
    have hovne : ¬ ov = 0 := Nat.pos_iff_ne_zero.mp hov
    simp only [applyOverlap, if_neg hovne] at hq hy
    have hyA : (List.map (fun pc => overlapText ov pc.1 ++ ' ' :: pc.2)
        ((c0 :: rest).zip rest))[i]? = some y := by simpa using hy
    rw [List.getElem?_map] at hyA
    cases hzip : ((c0 :: rest).zip rest)[i]? with
    | none => rw [hzip] at hyA; simp at hyA
    | some pr =>
      obtain ⟨p2, c2⟩ := pr
      rw [hzip] at hyA
      have hyv : y = overlapText ov p2 ++ ' ' :: c2 := by
        have := hyA.symm
        simpa using this
      obtain ⟨hz1, hz2⟩ := List.getElem?_zip_eq_some.mp hzip
      have hp2 : p2 = p := by
        rw [hp] at hz1
        exact (Option.some.inj hz1).symm
      have hc2 : c2 = c := by
        have hx : rest[i]? = (c0 :: rest)[i + 1]? := by simp
        rw [hx, hc] at hz2
        exact (Option.some.inj hz2).symm
      rw [hp2, hc2] at hyv
      refine ⟨hyv, overlapText_suffix ov p, ?_, overlapText_length ov p hov,
        fun j hj hjp => overlapText_aligned ov p j hj hjp⟩
      cases i with
      | zero =>
        have h1 : c0 = p := by simpa using hp
        have h2 : c0 = q := by simpa using hq
        rw [← h1, ← h2]
      | succ i2 =>
        have hqA : (List.map (fun pc => overlapText ov pc.1 ++ ' ' :: pc.2)
            ((c0 :: rest).zip rest))[i2]? = some q := by simpa using hq
        rw [List.getElem?_map] at hqA
        cases hzip2 : ((c0 :: rest).zip rest)[i2]? with
        | none => rw [hzip2] at hqA; simp at hqA
        | some pr2 =>
          obtain ⟨p3, c3⟩ := pr2
          rw [hzip2] at hqA
          have hqv : q = overlapText ov p3 ++ ' ' :: c3 := by
            have := hqA.symm
            simpa using this
          obtain ⟨hw1, hw2⟩ := List.getElem?_zip_eq_some.mp hzip2
          have hc3 : c3 = p := by
            have hx : rest[i2]? = (c0 :: rest)[i2 + 1]? := by simp
            rw [hx, hp] at hw2
            exact (Option.some.inj hw2).symm
          rw [hc3] at hqv
          rw [hqv]
          exact ⟨overlapText ov p3 ++ [' '], by simp⟩

/-- Witness for c2_amended: overlap 4 on the chunks "ab cd" and "efgh",
whose window "b cd" has its space at index 1, giving the aligned overlap
"cd". -/
theorem c2_amended_witness :
    0 < 4 ∧
    ("cd efgh".data = overlapText 4 "ab cd".data ++ ' ' :: "efgh".data ∧
    overlapText 4 "ab cd".data <:+ "ab cd".data ∧
    "ab cd".data <:+ "ab cd".data ∧
    (overlapText 4 "ab cd".data).length ≤ 4 ∧
    (∀ j, firstIdxOf ' ' (overlapWindow 4 "ab cd".data) = some j → 0 < j →
      ∃ t, "ab cd".data = t ++ overlapText 4 "ab cd".data ∧
        t.getLast? = some ' ')) :=
  ⟨by decide,
    c2_amended 4 ["ab cd".data, "efgh".data] 0 "ab cd".data "efgh".data
      "ab cd".data "cd efgh".data (by decide) (by decide) (by decide)
      (by decide) (by decide)⟩

/-- estSum distributes over cons. -/
theorem estSum_cons (m : Msg) (l : List Msg) :
    estSum (m :: l) = estT m + estSum l := by
  simp [estSum]

/-- estSum is invariant under reversal. -/
theorem estSum_reverse (l : List Msg) : estSum l.reverse = estSum l := by
  simp [estSum, List.map_reverse, List.sum_reverse]

/-- Run of the get_context_for_llm loop from a seed list headed by the
system message: it prepends, in chronological order, the greedy prefix of
the most-recent-first list, and accumulates its estimates. -/
theorem ctxLoop_run (b : Nat) (rl : List Msg) (s : Msg) (chron : List Msg)
    (tc : Nat) :
    ctxLoop b rl (s :: chron, tc) =
      (s :: ((rl.take (greedyCount b tc rl)).reverse ++ chron),
       tc + estSum (rl.take (greedyCount b tc rl))) := by
  induction rl generalizing chron tc with
  | nil => simp [ctxLoop, greedyCount, estSum]
  | cons m rest ih =>
    by_cases h : b < tc + estT m
    · simp [ctxLoop, greedyCount, h, estSum]
    · simp only [ctxLoop, if_neg h, greedyCount, pyInsert1]
      rw [ih (m :: chron) (tc + estT m)]
      simp [List.take_succ_cons, estSum_cons]
      omega

/-- The greedy prefix respects the budget whenever the seed total does. -/
theorem greedyCount_budget (b : Nat) (rl : List Msg) : ∀ tc, tc ≤ b →
    tc + estSum (rl.take (greedyCount b tc rl)) ≤ b := by
  induction rl with
  | nil =>
    intro tc h
    simpa [greedyCount, estSum] using h
  | cons m rest ih =>
    intro tc h
    by_cases hb : b < tc + estT m
    · simpa [greedyCount, hb, estSum] using h
    · have h2 := ih (tc + estT m) (le_of_not_lt hb)
      simp only [greedyCount, if_neg hb, List.take_succ_cons, estSum_cons]
      omega

/-- The greedy prefix stops exactly at the first message whose estimate
would push the total past the budget. -/
theorem greedyCount_stop (b : Nat) (rl : List Msg) : ∀ tc m,
    rl[greedyCount b tc rl]? = some m →
    b < tc + estSum (rl.take (greedyCount b tc rl)) + estT m := by
  induction rl with
  | nil =>
    intro tc m h
    simp [greedyCount] at h
  | cons m0 rest ih =>
    intro tc m h
    by_cases hb : b < tc + estT m0
    · simp only [greedyCount, if_pos hb] at h ⊢
      have hm : m0 = m := by simpa using h
      subst hm
      simp [estSum]
      omega
    · simp only [greedyCount, if_neg hb] at h ⊢
      have h2 : rest[greedyCount b (tc + estT m0) rest]? = some m := by
        simpa using h
      have h3 := ih (tc + estT m0) m h2
      simp only [List.take_succ_cons, estSum_cons]
      omega

/-- Claim C1 (amended): when the conversation contains a system turn whose
estimate fits the budget, get_context_for_llm returns the system turn
followed by the greedily selected most-recent non-system turns in
chronological order (a suffix of the chronological non-system list), the
total estimate respects the budget, and selection stopped at the first
turn that would exceed it. -/
theorem c1_amended (maxT : Nat) (msgs : List Msg) (s : Msg)
    (hs : msgs.find? (fun m => m.role == "system") = some s)
    (hb : estT s ≤ 10 * maxT) :
    ∃ j, getContextForLLM maxT msgs =
        s :: ((msgs.filter (fun m => m.role != "system")).reverse.take j).reverse ∧
      (getContextForLLM maxT msgs).tail <:+
        msgs.filter (fun m => m.role != "system") ∧
      estSum (getContextForLLM maxT msgs) ≤ 10 * maxT ∧
      (∀ m, ((msgs.filter (fun m2 => m2.role != "system")).reverse)[j]? = some m →
        10 * maxT < estSum (getContextForLLM maxT msgs) + estT m) := by
  have hout : getContextForLLM maxT msgs =
      (ctxLoop (10 * maxT)
        ((msgs.filter (fun m => m.role != "system")).reverse) ([s], estT s)).1 := by
    unfold getContextForLLM
    rw [hs]
  have hrun := ctxLoop_run (10 * maxT)
    ((msgs.filter (fun m => m.role != "system")).reverse) s [] (estT s)
  refine ⟨greedyCount (10 * maxT) (estT s)
    ((msgs.filter (fun m => m.role != "system")).reverse), ?_, ?_, ?_, ?_⟩
  · rw [hout, hrun]
    simp
  · rw [hout, hrun]
    simp only [List.tail_cons, List.append_nil]
    refine ⟨((msgs.filter (fun m => m.role != "system")).reverse.drop
      (greedyCount (10 * maxT) (estT s)
        ((msgs.filter (fun m => m.role != "system")).reverse))).reverse, ?_⟩
    rw [← List.reverse_append, List.take_append_drop, List.reverse_reverse]
  · rw [hout, hrun]
    have h2 := greedyCount_budget (10 * maxT)
      ((msgs.filter (fun m => m.role != "system")).reverse) (estT s) hb
    simp only [List.append_nil, estSum_cons, estSum_reverse]
    omega
  · intro m hm
    rw [hout, hrun]
    have h3 := greedyCount_stop (10 * maxT)
      ((msgs.filter (fun m => m.role != "system")).reverse) (estT s) m hm
    simp only [List.append_nil, estSum_cons, estSum_reverse]
    omega

/-- Witness for c1_amended: a system turn plus one user turn, well within a
100-token budget. -/
theorem c1_amended_witness :
    ([⟨"system", "be nice"⟩, ⟨"user", "hello there"⟩] : List Msg).find?
      (fun m => m.role == "system") = some ⟨"system", "be nice"⟩ ∧
    estT ⟨"system", "be nice"⟩ ≤ 10 * 100 ∧
    ∃ j, getContextForLLM 100 [⟨"system", "be nice"⟩, ⟨"user", "hello there"⟩] =
        ⟨"system", "be nice"⟩ ::
          ((([⟨"system", "be nice"⟩, ⟨"user", "hello there"⟩] : List Msg).filter
            (fun m => m.role != "system")).reverse.take j).reverse ∧
      (getContextForLLM 100 [⟨"system", "be nice"⟩, ⟨"user", "hello there"⟩]).tail <:+
        ([⟨"system", "be nice"⟩, ⟨"user", "hello there"⟩] : List Msg).filter
          (fun m => m.role != "system") ∧
      estSum (getContextForLLM 100 [⟨"system", "be nice"⟩, ⟨"user", "hello there"⟩]) ≤
        10 * 100 ∧
      (∀ m, ((([⟨"system", "be nice"⟩, ⟨"user", "hello there"⟩] : List Msg).filter
          (fun m2 => m2.role != "system")).reverse)[j]? = some m →
        10 * 100 <
          estSum (getContextForLLM 100
            [⟨"system", "be nice"⟩, ⟨"user", "hello there"⟩]) + estT m) :=
  ⟨by decide, by decide,
    c1_amended 100 [⟨"system", "be nice"⟩, ⟨"user", "hello there"⟩]
      ⟨"system", "be nice"⟩ (by decide) (by decide)⟩

/-- Under the termination hypotheses the cut position advances past the
window start by more than the overlap: either the full window of
chunk_size characters stands (and overlap < chunk_size), or the cut lands
past chunk_size / 2 (and overlap is at most chunk_size / 2). -/
theorem sbsCut_lower (cs ov : Nat) (text : List Char) (start : Nat)
    (h1 : 1 ≤ cs) (h2 : ov ≤ cs / 2) :
    start + ov < (sbsCut cs text start).2 := by
  have hdiv : cs / 2 < cs := Nat.div_lt_self (by omega) (by omega)
  unfold sbsCut
  by_cases hstop : start + cs < text.length
  · simp only [if_pos hstop]
    cases hL : lastIdxOf ' ' ((text.drop start).take cs) with
    | none => simp; omega
    | some ls =>
      by_cases hls : cs / 2 < ls
      · simp [hls]
        omega
      · simp [hls]
        omega
  · simp only [if_neg hstop]
    omega

/-- Fuel equal to the remaining text length suffices for the fixed-size
fallback under the termination hypotheses. -/
theorem splitBySizeAux_isSome (cs ov : Nat) (text : List Char)
    (h1 : 1 ≤ cs) (h2 : ov ≤ cs / 2) : ∀ fuel start,
    text.length - start ≤ fuel →
    (splitBySizeAux cs ov text fuel start).isSome := by
  intro fuel
  induction fuel with
  | zero =>
    intro start h
    simp only [splitBySizeAux]
    rw [if_neg (by omega)]
    simp
  | succ f ih =>
    intro start h
    simp only [splitBySizeAux]
    by_cases hlt : start < text.length
    · rw [if_pos hlt]
      have hcut := sbsCut_lower cs ov text start h1 h2
      have hrec := ih ((sbsCut cs text start).2 - ov) (by omega)
      obtain ⟨rest, hrest⟩ := Option.isSome_iff_exists.mp hrec
      rw [hrest]
      simp
    · rw [if_neg hlt]
      simp

/-- The fixed-size fallback terminates under the hypotheses. -/
theorem splitBySize_isSome (cs ov : Nat) (h1 : 1 ≤ cs) (h2 : ov ≤ cs / 2)
    (text : List Char) : (splitBySize cs ov text).isSome :=
  splitBySizeAux_isSome cs ov text h1 h2 text.length 0 (by omega)

/-- The piece loop of _split_with_separator produces a result whenever the
nested recursive calls do. -/
theorem swsLoopH_isSome (cs : Nat) (sep : List Char)
    (recCall : List Char → Option (List (List Char)))
    (hrec : ∀ piece, (recCall piece).isSome) :
    ∀ splits chunks current,
    (swsLoopH cs sep recCall splits chunks current).isSome := by
  intro splits
  induction splits with
  | nil =>
    intro chunks current
    simp [swsLoopH]
  | cons piece more ih =>
    intro chunks current
    obtain ⟨sub, hr⟩ := Option.isSome_iff_exists.mp (hrec piece)
    simp only [swsLoopH, hr]
    repeat' split
    all_goals exact ih _ _

/-- The separator-candidate loop produces a result whenever the nested
recursive calls and the fallback do. -/
theorem trySepsH_isSome (cs ov : Nat)
    (recCall : List Char → Option (List (List Char))) (text : List Char)
    (hrec : ∀ piece, (recCall piece).isSome)
    (hbs : ∀ t : List Char, (splitBySize cs ov t).isSome) :
    ∀ cands, (trySepsH cs ov recCall text cands).isSome := by
  intro cands
  induction cands with
  | nil => simpa [trySepsH] using hbs text
  | cons sep more ih =>
    obtain ⟨st, hsw⟩ := Option.isSome_iff_exists.mp
      (swsLoopH_isSome cs sep recCall hrec (splitOnSub sep text) [] [])
    simp only [trySepsH, hsw]
    split
    · split
      · exact ih
      · simp
    · exact ih

/-- Separator fuel exceeding the separator-list length suffices for the
recursive split under the termination hypotheses. -/
theorem recursiveSplitF_isSome (cs ov : Nat) (h1 : 1 ≤ cs)
    (h2 : ov ≤ cs / 2) : ∀ fuel seps text, seps.length < fuel →
    (recursiveSplitF cs ov fuel seps text).isSome := by
  intro fuel
  induction fuel with
  | zero =>
    intro seps text h
    exact absurd h (by omega)
  | succ f ih =>
    intro seps text h
    simp only [recursiveSplitF]
    split
    · simp
    · split
      · simp
      · cases seps with
        | nil => exact splitBySize_isSome cs ov h1 h2 text
        | cons s0 tl =>
          exact trySepsH_isSome cs ov _ text
            (fun piece => ih tl piece (by simp at h; omega))
            (splitBySize_isSome cs ov h1 h2) (s0 :: tl)

/-- Claim C10: split_text terminates for every input provided chunk_size is
at least 1 and the overlap is at most chunk_size / 2: the separator
recursion always receives a strictly shorter separator list (so its fuel
of separators.length + 1 is never exhausted), and every fixed-size window
advances its start, so fuel text.length suffices there. -/
theorem c10_termination (cfg : SplitCfg) (text : List Char)
    (h1 : 1 ≤ cfg.chunkSize) (h2 : cfg.chunkOverlap ≤ cfg.chunkSize / 2) :
    (splitText cfg text).isSome :=
  recursiveSplitF_isSome cfg.chunkSize cfg.chunkOverlap h1 h2
    (cfg.separators.length + 1) cfg.separators text (by omega)

/-- Witness for c10_termination at the default configuration. -/
theorem c10_termination_witness :
    1 ≤ 1000 ∧ 200 ≤ 1000 / 2 ∧
    (splitText ⟨1000, 200, defaultSeparators⟩ "hello world".data).isSome :=
  ⟨by decide, by decide,
    c10_termination ⟨1000, 200, defaultSeparators⟩ "hello world".data
      (by decide) (by decide)⟩

/-- Below capacity the eviction loop does nothing. -/
theorem evictLoop_small (maxC : Nat) (convs : List (String × Conv))
    (stats : List String) (h : convs.length < maxC) :
    evictLoop maxC convs stats = (convs, stats) := by
  cases convs with
  | nil => rfl
  | cons p rest =>
    obtain ⟨k, v⟩ := p
    simp only [evictLoop]
    rw [if_neg (by simpa using Nat.not_le.mpr h)]

/-- Creating a fresh conversation below capacity appends it. -/
theorem createConversation_fresh (maxC : Nat) (st : ConvState) (cid : String)
    (hlen : st.convs.length < maxC) (hconv : cid ∉ st.convs.map Prod.fst)
    (hstat : cid ∉ st.stats) :
    createConversation maxC st cid =
      ⟨st.convs ++ [(cid, ⟨[]⟩)], st.stats ++ [cid]⟩ := by
  have hany : (st.convs.any fun p => p.1 == cid) = false := by
    rw [List.any_eq_false]
    intro p hp
    simp only [beq_iff_eq]
    intro hpe
    exact hconv (List.mem_map.mpr ⟨p, hp, hpe⟩)
  have hcont : st.stats.contains cid = false := by
    simpa using hstat
  simp [createConversation, evictLoop_small maxC st.convs st.stats hlen,
    odSetConv, hany, odSetStat, hcont, hstat]

/-- Folding fresh distinct creations below capacity lays the conversations
down in creation order. -/
theorem foldl_create_fresh (maxC : Nat) : ∀ (l pre : List String),
    (pre ++ l).Nodup → pre.length + l.length ≤ maxC →
    List.foldl (fun st cid => createConversation maxC st cid)
      ⟨pre.map (fun c => (c, ⟨[]⟩)), pre⟩ l =
      ⟨(pre ++ l).map (fun c => (c, ⟨[]⟩)), pre ++ l⟩ := by
  intro l
  induction l with
  | nil =>
    intro pre _ _
    simp
  | cons x xs ih =>
    intro pre hnd hlen
    have hx : x ∉ pre := by
      rcases List.nodup_append.mp hnd with ⟨_, _, hdisj⟩
      intro hmem
      exact hdisj hmem (by simp)
    have hlen1 : (List.map (fun c => (c, (⟨[]⟩ : Conv))) pre).length < maxC := by
      have h3 := hlen
      simp only [List.length_cons] at h3
      simp only [List.length_map]
      omega
    have hstep : createConversation maxC ⟨pre.map (fun c => (c, ⟨[]⟩)), pre⟩ x =
        ⟨(pre ++ [x]).map (fun c => (c, ⟨[]⟩)), pre ++ [x]⟩ := by
      rw [createConversation_fresh maxC _ x hlen1 (by simpa using hx) hx]
      simp
    have hnd2 : ((pre ++ [x]) ++ xs).Nodup := by
      simpa [List.append_assoc] using hnd
    have hlen2 : (pre ++ [x]).length + xs.length ≤ maxC := by
      simp only [List.length_append, List.length_cons, List.length_nil] at *
      omega
    rw [List.foldl_cons, hstep, ih (pre ++ [x]) hnd2 hlen2]
    simp

/-- Creating a fresh conversation at exact capacity evicts exactly the
least recently used (front) conversation and its stats entry, then
appends. -/
theorem createConversation_evict (maxC : Nat) (hd : String × Conv)
    (restC : List (String × Conv)) (stats : List String) (cid : String)
    (hlen : (hd :: restC).length = maxC)
    (hconv : cid ∉ (hd :: restC).map Prod.fst)
    (hstat : cid ∉ stats) :
    createConversation maxC ⟨hd :: restC, stats⟩ cid =
      ⟨restC ++ [(cid, ⟨[]⟩)], (stats.erase hd.1) ++ [cid]⟩ := by
  obtain ⟨k, v⟩ := hd
  have hev : evictLoop maxC ((k, v) :: restC) stats =
      (restC, stats.erase k) := by
    simp only [evictLoop]
    rw [if_pos (by simp at hlen ⊢; omega)]
    exact evictLoop_small maxC restC (stats.erase k) (by simp at hlen ⊢; omega)
  have hany : (restC.any fun p => p.1 == cid) = false := by
    rw [List.any_eq_false]
    intro p hp
    simp only [beq_iff_eq]
    intro hpe
    exact hconv (List.mem_map.mpr ⟨p, by simp [hp], hpe⟩)
  have hmem2 : cid ∉ stats.erase k := fun hmem =>
    hstat (List.mem_of_mem_erase hmem)
  have hcont : (stats.erase k).contains cid = false := by
    simpa using hmem2
  simp [createConversation, hev, odSetConv, hany, odSetStat, hcont, hmem2]

/-- Looking a present key up in the uniform conversation table finds the
empty conversation. -/
theorem lookup_map_const (cid : String) (l : List String) (h : cid ∈ l) :
    List.lookup cid (l.map (fun c => (c, (⟨[]⟩ : Conv)))) = some ⟨[]⟩ := by
  induction l with
  | nil => simp at h
  | cons x xs ih =>
    by_cases hx : cid = x
    · simp [List.lookup, hx]
    · have h2 : cid ∈ xs := by
        rcases List.mem_cons.mp h with h3 | h3
        · exact absurd h3 hx
        · exact h3
      simpa [List.lookup, beq_eq_false_iff_ne.mpr hx] using ih h2

/-- Claim C5 (amended): with capacity at least 1, creating maxC + 1
conversations with distinct ids lays down all but the first and evicts
exactly the first-created conversation and its stats entry; and with
capacity at least 2, a conversation accessed via get_conversation (or
get_or_create, which coincides with it on a hit) right before the last
creation survives that creation's eviction. -/
theorem c5_amended (maxC : Nat) (ids : List String) (lastId : String)
    (h1 : 1 ≤ maxC) (hnd : (ids ++ [lastId]).Nodup)
    (hlen : ids.length = maxC) :
    ((List.foldl (fun st cid => createConversation maxC st cid) emptyConvState
        (ids ++ [lastId])).convs.map Prod.fst = ids.tail ++ [lastId] ∧
     (List.foldl (fun st cid => createConversation maxC st cid) emptyConvState
        (ids ++ [lastId])).stats = ids.tail ++ [lastId]) ∧
    (2 ≤ maxC → ∀ cid ∈ ids,
      getOrCreate maxC
        (List.foldl (fun st cid2 => createConversation maxC st cid2)
          emptyConvState ids) cid =
        (getConversation
          (List.foldl (fun st cid2 => createConversation maxC st cid2)
            emptyConvState ids) cid).2 ∧
      cid ∈ (createConversation maxC
        (getConversation
          (List.foldl (fun st cid2 => createConversation maxC st cid2)
            emptyConvState ids) cid).2 lastId).convs.map Prod.fst) := by
  obtain ⟨hndIds, -, hdisj⟩ := List.nodup_append.mp hnd
  have hlast : lastId ∉ ids := by
    intro hmem
    exact hdisj hmem (by simp)
  have hstN : List.foldl (fun st cid => createConversation maxC st cid)
      emptyConvState ids = ⟨ids.map (fun c => (c, ⟨[]⟩)), ids⟩ := by
    have := foldl_create_fresh maxC ids [] (by simpa using hndIds)
      (by simp only [List.length_nil]; omega)
    simpa [emptyConvState] using this
  constructor
  · -- part A: the (maxC+1)th creation evicts exactly the first
    cases ids with
    | nil => simp at hlen; omega
    | cons i0 irest =>
      rw [List.foldl_append, hstN]
      simp only [List.foldl_cons, List.foldl_nil, List.map_cons]
      rw [createConversation_evict maxC (i0, ⟨[]⟩) (irest.map (fun c => (c, ⟨[]⟩)))
        (i0 :: irest) lastId (by simpa using hlen)
        (by simpa using hlast) hlast]
      constructor
      · simp [Function.comp_def]
      · simp [List.erase_cons_head]
  · -- part B: access protection at capacity at least 2
    intro h2 cid hcid
    rw [hstN]
    have hlk : List.lookup cid (ids.map (fun c => (c, (⟨[]⟩ : Conv)))) =
        some ⟨[]⟩ := lookup_map_const cid ids hcid
    have hget : getConversation ⟨ids.map (fun c => (c, ⟨[]⟩)), ids⟩ cid =
        (some ⟨[]⟩,
          ⟨((ids.map (fun c => (c, ⟨[]⟩))).eraseP (fun p => p.1 == cid)) ++
            [(cid, ⟨[]⟩)], ids⟩) := by
      simp [getConversation, hlk]
    refine ⟨?_, ?_⟩
    · simp [getOrCreate, hget]
    · have hmemP : ((cid, (⟨[]⟩ : Conv)) ∈ ids.map (fun c => (c, (⟨[]⟩ : Conv)))) :=
        List.mem_map.mpr ⟨cid, hcid, rfl⟩
      have hElen : ((ids.map (fun c => (c, (⟨[]⟩ : Conv)))).eraseP
          (fun p => p.1 == cid)).length = maxC - 1 := by
        rw [List.length_eraseP_of_mem hmemP (by simp)]
        simp [hlen]
      set E := (ids.map (fun c => (c, (⟨[]⟩ : Conv)))).eraseP
        (fun p => p.1 == cid) with hE
      cases hEc : E with
      | nil => rw [hEc] at hElen; simp at hElen; omega
      | cons e0 E2 =>
        have hkeysE : ∀ p ∈ E, p.1 ∈ ids := by
          intro p hp
          have hsub := List.eraseP_sublist
            (l := ids.map (fun c => (c, (⟨[]⟩ : Conv)))) (p := fun p => p.1 == cid)
          have hmem2 : p ∈ ids.map (fun c => (c, (⟨[]⟩ : Conv))) :=
            hsub.subset (hE ▸ hp)
          obtain ⟨c, hc, rfl⟩ := List.mem_map.mp hmem2
          exact hc
        have hlastE : lastId ∉ (E ++ [(cid, (⟨[]⟩ : Conv))]).map Prod.fst := by
          simp only [List.map_append, List.mem_append, List.map_cons]
          rintro (hg | hg)
          · obtain ⟨p, hp, hpe⟩ := List.mem_map.mp hg
            exact hlast (hpe ▸ hkeysE p hp)
          · simp at hg
            exact hlast (hg ▸ hcid)
        have hfull : ((e0 :: (E2 ++ [(cid, (⟨[]⟩ : Conv))])) :
            List (String × Conv)).length = maxC := by
          have : E.length = maxC - 1 := hElen
          rw [hEc] at this
          simp at this ⊢
          omega
        have hEapp : E ++ [(cid, (⟨[]⟩ : Conv))] =
            e0 :: (E2 ++ [(cid, (⟨[]⟩ : Conv))]) := by
          rw [hEc]
          simp
        have hlastE2 : lastId ∉
            (e0 :: (E2 ++ [(cid, (⟨[]⟩ : Conv))])).map Prod.fst := by
          rw [← hEapp]
          exact hlastE
        rw [hget]
        dsimp only
        rw [hEapp, createConversation_evict maxC e0 (E2 ++ [(cid, (⟨[]⟩ : Conv))])
          ids lastId hfull hlastE2 hlast]
        simp

/-- Witness for c5_amended: capacity 2, creations a, b, c. -/
theorem c5_amended_witness :
    1 ≤ 2 ∧ ((["a", "b"] ++ ["c"] : List String).Nodup ∧
      (["a", "b"] : List String).length = 2) ∧
    (((List.foldl (fun st cid => createConversation 2 st cid) emptyConvState
        (["a", "b"] ++ ["c"])).convs.map Prod.fst =
        (["a", "b"] : List String).tail ++ ["c"] ∧
     (List.foldl (fun st cid => createConversation 2 st cid) emptyConvState
        (["a", "b"] ++ ["c"])).stats =
        (["a", "b"] : List String).tail ++ ["c"]) ∧
    (2 ≤ 2 → ∀ cid ∈ (["a", "b"] : List String),
      getOrCreate 2
        (List.foldl (fun st cid2 => createConversation 2 st cid2)
          emptyConvState ["a", "b"]) cid =
        (getConversation
          (List.foldl (fun st cid2 => createConversation 2 st cid2)
            emptyConvState ["a", "b"]) cid).2 ∧
      cid ∈ (createConversation 2
        (getConversation
          (List.foldl (fun st cid2 => createConversation 2 st cid2)
            emptyConvState ["a", "b"]) cid).2 "c").convs.map Prod.fst)) :=
  ⟨by decide, ⟨by decide, by decide⟩,
    c5_amended 2 ["a", "b"] "c" (by decide) (by decide) (by decide)⟩

/-- Witness for c4_hash_keyed_cache at a concrete collision: the constant
hash collides on "a" and "b". -/
theorem c4_hash_keyed_cache_witness :
    ("a" : String) ≠ "b" ∧
    ((fun _ : String => (0 : Int)) "a" = (fun _ : String => (0 : Int)) "b") ∧
    ((genEmbedding (fun _ => 0) (fun s => [(s.length : Rat)]) 1000 [] "a").1 =
      [(1 : Rat)] ∧
    (genEmbedding (fun _ => 0) (fun s => [(s.length : Rat)]) 1000
        (genEmbedding (fun _ => 0) (fun s => [(s.length : Rat)]) 1000 [] "a").2
        "b").1 = [(1 : Rat)] ∧
    (∀ g : String → Fin (2 ^ 64), ¬ Function.Injective g)) := by
  refine ⟨by decide, rfl, ?_⟩
  have := c4_hash_keyed_cache (fun _ => 0) (fun s => [(s.length : Rat)])
    "a" "b" (by decide) rfl
  simpa using this

end Allma
